import Mathlib

/-!
Verification of the transcript parser of `get_claude_usage.py`.

The parser (`parse_usage` in the source) takes the raw terminal transcript
and produces a record of usage fields.  We embed it shallowly: text is
`List Char`, the four `re.sub` cleaning stages and the three `re.search`
patterns are translated into executable Lean functions that mirror the
left-to-right, leftmost-match, greedy semantics of the Python `re` module
for these particular patterns, and the `while` loop over lines becomes a
fold over line indices.

Notes on faithfulness:
* After the third cleaning stage every character of the cleaned text is
  printable ASCII or a newline, so the Unicode-aware parts of Python's
  `str.lower`, `str.strip` and `\s` / `\d` classes coincide with their
  ASCII restrictions used here (the line-level functions below are only
  ever applied to cleaned text).
* Python's `int` on a captured digit group is a non-negative integer, so
  percent fields live in `Nat`.
-/

/-- The escape character `\x1b` that introduces terminal control sequences. -/
def escChar : Char := Char.ofNat 27

/-- Characters allowed in the parameter part of a CSI sequence: `[0-9;?]`. -/
def isCsiParam (c : Char) : Bool :=
  c.isDigit || c = ';' || c = '?'

/-- ASCII letter, the terminator class `[a-zA-Z]` of the CSI pattern. -/
def isAsciiLetter (c : Char) : Bool :=
  (65 ≤ c.toNat && c.toNat ≤ 90) || (97 ≤ c.toNat && c.toNat ≤ 122)

/-- The introducer class `[<>=\]]` of the second stripping pattern. -/
def isOscIntro (c : Char) : Bool :=
  c = '<' || c = '>' || c = '=' || c = ']'

/-- ASCII whitespace as matched by Python's `\s` and stripped by
`str.strip()` (the Unicode cases cannot occur in cleaned text). -/
def isPyWs (c : Char) : Bool :=
  c = ' ' || c = '\t' || c = '\n' || c = '\r' || c = '\x0b' || c = '\x0c'

/-- A character kept unchanged by the third cleaning stage
(`[^\x20-\x7E\n]` is replaced by a space): printable ASCII or newline. -/
def isPrintableOrNl (c : Char) : Bool :=
  (32 ≤ c.toNat && c.toNat ≤ 126) || c = '\n'

/-- Scanner for `re.sub(r'\x1b\[[0-9;?]*[a-zA-Z]', '', text)`.
The first argument is the pending partial escape sequence (`[]` when not
inside one; `[esc]` after a lone escape; `esc :: '[' :: params` inside the
parameter run).  A pending sequence is emitted verbatim when it can no
longer be completed, matching `re.sub`'s behaviour of leaving unmatched
text in place; a completed sequence is dropped.  Scanning can only restart
at an escape character, so buffering is sound. -/
def stripCSIRun : List Char → List Char → List Char
  | pending, [] => pending
  | pending, c :: rest =>
    match pending with
    | [] =>
      if c = escChar then stripCSIRun [escChar] rest
      else c :: stripCSIRun [] rest
    | [e] =>
      if c = '[' then stripCSIRun [e, '['] rest
      else if c = escChar then e :: stripCSIRun [escChar] rest
      else e :: c :: stripCSIRun [] rest
    | buf =>
      if isCsiParam c then stripCSIRun (buf ++ [c]) rest
      else if isAsciiLetter c then stripCSIRun [] rest
      else if c = escChar then buf ++ stripCSIRun [escChar] rest
      else (buf ++ [c]) ++ stripCSIRun [] rest

/-- First cleaning stage: remove CSI control sequences. -/
def stripCSI (l : List Char) : List Char := stripCSIRun [] l

/-- Scanner state for the second stripping pattern. -/
inductive OscState
  | normal
  | sawEsc
  | inBody
deriving DecidableEq

/-- Scanner for `re.sub(r'\x1b[<>=\]][^\x1b]*', '', text)`.  Once an
escape plus introducer is seen the match is committed (the body may be
empty) and all characters up to the next escape or end of text are
dropped. -/
def stripOSCRun : OscState → List Char → List Char
  | .sawEsc, [] => [escChar]
  | _, [] => []
  | .normal, c :: rest =>
    if c = escChar then stripOSCRun .sawEsc rest
    else c :: stripOSCRun .normal rest
  | .sawEsc, c :: rest =>
    if isOscIntro c then stripOSCRun .inBody rest
    else if c = escChar then escChar :: stripOSCRun .sawEsc rest
    else escChar :: c :: stripOSCRun .normal rest
  | .inBody, c :: rest =>
    if c = escChar then stripOSCRun .sawEsc rest
    else stripOSCRun .inBody rest

/-- Second cleaning stage: remove the remaining escape-introduced runs. -/
def stripOSC (l : List Char) : List Char := stripOSCRun .normal l

/-- Third cleaning stage: `re.sub(r'[^\x20-\x7E\n]', ' ', text)`. -/
def toPrintable (l : List Char) : List Char :=
  l.map fun c => if isPrintableOrNl c then c else ' '

/-- Scanner for `re.sub(r' +', ' ', text)`: the Boolean records whether the
previous character was a space (runs of spaces keep only their first). -/
def collapseRun : Bool → List Char → List Char
  | _, [] => []
  | prevSpace, c :: rest =>
    if c = ' ' then
      if prevSpace then collapseRun true rest
      else ' ' :: collapseRun true rest
    else c :: collapseRun false rest

/-- Fourth cleaning stage: collapse runs of spaces. -/
def collapseSpaces (l : List Char) : List Char := collapseRun false l

/-- The whole cleaning pipeline of `parse_usage` (source lines 182–185). -/
def cleanText (l : List Char) : List Char :=
  collapseSpaces (toPrintable (stripOSC (stripCSI l)))

/-- Python's `s[-n:]`: the final `n` characters (all of them when short). -/
def lastN (n : Nat) (l : List Char) : List Char :=
  l.drop (l.length - n)

/-- Python's `str.split('\n')`: split on newlines, keeping empty pieces. -/
def splitLines : List Char → List (List Char)
  | [] => [[]]
  | c :: rest =>
    if c = '\n' then [] :: splitLines rest
    else
      match splitLines rest with
      | [] => [[c]]
      | x :: xs => (c :: x) :: xs

/-- Python's `str.strip()` restricted to ASCII whitespace. -/
def pyStrip (l : List Char) : List Char :=
  ((l.dropWhile isPyWs).reverse.dropWhile isPyWs).reverse

/-- Python's `str.lower()` restricted to ASCII (sufficient on cleaned text). -/
def lowerList (l : List Char) : List Char :=
  l.map Char.toLower

/-- Does `l` start with `pat` (exact character match)? -/
def listStartsWith : List Char → List Char → Bool
  | [], _ => true
  | _ :: _, [] => false
  | p :: ps, c :: cs => p = c && listStartsWith ps cs

/-- Python's `pat in l` substring test. -/
def containsSub (pat : List Char) : List Char → Bool
  | [] => listStartsWith pat []
  | c :: cs => listStartsWith pat (c :: cs) || containsSub pat cs

/-- `int` of a captured digit group. -/
def digitsToNat (l : List Char) : Nat :=
  l.foldl (fun a c => a * 10 + (c.toNat - 48)) 0

/-- Match attempt for `(\d+)\s*%` at the head of `l`; returns the integer
value of the digit group on success.  For this pattern greedy matching is
deterministic (the digit, whitespace and `%` classes are disjoint). -/
def matchPercentAt (l : List Char) : Option Nat :=
  let ds := l.takeWhile Char.isDigit
  if ds.isEmpty then none
  else
    match (l.dropWhile Char.isDigit).dropWhile isPyWs with
    | '%' :: _ => some (digitsToNat ds)
    | _ => none

/-- `re.search(r'(\d+)\s*%', line)`: leftmost match attempt wins. -/
def searchPercent : List Char → Option Nat
  | [] => none
  | c :: cs => (matchPercentAt (c :: cs)).orElse fun _ => searchPercent cs

/-- Case-insensitive prefix match: `pat` is lowercase; on success returns
the consumed original characters and the remainder. -/
def dropPrefixCI : List Char → List Char → Option (List Char × List Char)
  | [], l => some ([], l)
  | _ :: _, [] => none
  | p :: ps, c :: cs =>
    if Char.toLower c = p then
      match dropPrefixCI ps cs with
      | some (con, rest) => some (c :: con, rest)
      | none => none
    else none

/-- The part of the session-reset pattern after `resets?`:
`\s*(\d+[:\d]*\s*[ap]m[^)\n]*)` (case-insensitive), applied to the
remainder `r`; returns the captured group.  Greedy matching is
deterministic here (each character class is disjoint from what may
follow it). -/
def sessionResetTail (r : List Char) : Option (List Char) :=
  let r2 := r.dropWhile isPyWs
  let p1 := r2.takeWhile Char.isDigit
  if p1.isEmpty then none
  else
    let r3 := r2.dropWhile Char.isDigit
    let p2 := r3.takeWhile fun c => c = ':' || c.isDigit
    let r4 := r3.dropWhile fun c => c = ':' || c.isDigit
    let p3 := r4.takeWhile isPyWs
    let r5 := r4.dropWhile isPyWs
    match r5 with
    | a :: m :: r6 =>
      if (Char.toLower a = 'a' || Char.toLower a = 'p') && Char.toLower m = 'm' then
        some (p1 ++ p2 ++ p3 ++ [a, m] ++ r6.takeWhile fun c => !(c = ')' || c = '\n'))
      else none
    | _ => none

/-- Match attempt for `resets?\s*(\d+[:\d]*\s*[ap]m[^)\n]*)` (IGNORECASE)
at the head of `l`, returning group 1.  The optional `s` is greedy with
backtracking: the variant that consumes an `s` is tried first. -/
def matchSessionResetAt (l : List Char) : Option (List Char) :=
  match dropPrefixCI "reset".toList l with
  | none => none
  | some (_, r1) =>
    match r1 with
    | c :: r1b =>
      if Char.toLower c = 's' then
        (sessionResetTail r1b).orElse fun _ => sessionResetTail r1
      else sessionResetTail r1
    | [] => sessionResetTail r1

/-- `re.search` for the session-reset pattern: leftmost match wins;
the captured group is `strip`ped as in the source. -/
def searchSessionReset : List Char → Option (List Char)
  | [] => none
  | c :: cs =>
    (Option.map pyStrip (matchSessionResetAt (c :: cs))).orElse
      fun _ => searchSessionReset cs

/-- Do the three characters spell one of the twelve month abbreviations of
the weekly-reset pattern, case-insensitively?  The alternatives are
distinct strings of equal length, so at most one can match and the
alternation order of the source's regex is irrelevant. -/
def isMonthTriple (a b c : Char) : Bool :=
  (Char.toLower a = 'j' && Char.toLower b = 'a' && Char.toLower c = 'n') ||
  (Char.toLower a = 'f' && Char.toLower b = 'e' && Char.toLower c = 'b') ||
  (Char.toLower a = 'm' && Char.toLower b = 'a' && Char.toLower c = 'r') ||
  (Char.toLower a = 'a' && Char.toLower b = 'p' && Char.toLower c = 'r') ||
  (Char.toLower a = 'm' && Char.toLower b = 'a' && Char.toLower c = 'y') ||
  (Char.toLower a = 'j' && Char.toLower b = 'u' && Char.toLower c = 'n') ||
  (Char.toLower a = 'j' && Char.toLower b = 'u' && Char.toLower c = 'l') ||
  (Char.toLower a = 'a' && Char.toLower b = 'u' && Char.toLower c = 'g') ||
  (Char.toLower a = 's' && Char.toLower b = 'e' && Char.toLower c = 'p') ||
  (Char.toLower a = 'o' && Char.toLower b = 'c' && Char.toLower c = 't') ||
  (Char.toLower a = 'n' && Char.toLower b = 'o' && Char.toLower c = 'v') ||
  (Char.toLower a = 'd' && Char.toLower b = 'e' && Char.toLower c = 'c')

/-- The part of the weekly-reset pattern after `resets?`:
`\s*(jan|...|dec)[^)\n]+` applied to remainder `r`; `con` holds the
characters already consumed for `resets?`.  Returns the whole match
(group 0) on success; `[^)\n]+` requires at least one character. -/
def weeklyResetTail (con : List Char) (r : List Char) : Option (List Char) :=
  let ws := r.takeWhile isPyWs
  let r2 := r.dropWhile isPyWs
  match r2 with
  | a :: b :: c :: r3 =>
    if isMonthTriple a b c then
      let tail := r3.takeWhile fun d => !(d = ')' || d = '\n')
      if tail.isEmpty then none
      else some (con ++ ws ++ [a, b, c] ++ tail)
    else none
  | _ => none

/-- Match attempt for
`resets?\s*(jan|feb|mar|apr|may|jun|jul|aug|sep|oct|nov|dec)[^)\n]+`
(IGNORECASE) at the head of `l`, returning group 0.  The optional `s` is
tried consumed first, then unconsumed (this matters when the text after
`reset` is e.g. `sep ...`). -/
def matchWeeklyResetAt (l : List Char) : Option (List Char) :=
  match dropPrefixCI "reset".toList l with
  | none => none
  | some (con, r1) =>
    match r1 with
    | c :: r1b =>
      if Char.toLower c = 's' then
        (weeklyResetTail (con ++ [c]) r1b).orElse
          fun _ => weeklyResetTail con r1
      else weeklyResetTail con r1
    | [] => weeklyResetTail con r1

/-- `re.sub(r'^resets?\s*', '', text)`: strip a leading `reset`, an
optional `s`, and following whitespace (greedy, no continuation, hence no
backtracking). -/
def subLeadingResets (l : List Char) : List Char :=
  match dropPrefixCI "reset".toList l with
  | none => l
  | some (_, r) =>
    match r with
    | c :: rest =>
      if Char.toLower c = 's' then rest.dropWhile isPyWs
      else (c :: rest).dropWhile isPyWs
    | [] => []

/-- `re.search` for the weekly-reset pattern followed by the source's
post-processing: strip the leading `resets?` from group 0 and `strip`. -/
def searchWeeklyReset : List Char → Option (List Char)
  | [] => none
  | c :: cs =>
    (Option.map (fun g => pyStrip (subLeadingResets g)) (matchWeeklyResetAt (c :: cs))).orElse
      fun _ => searchWeeklyReset cs

/-- The record returned by `parse_usage` (source lines 172–179).  Text
fields are character lists; percent fields are the non-negative integers
produced by `int` on a digit group. -/
structure UsageRecord where
  session_percent : Nat
  session_reset : List Char
  weekly_percent : Nat
  weekly_reset : List Char
  sonnet_percent : Nat
  raw : List Char
deriving DecidableEq

/-- The line at index `i` (`[]` out of range, which the loop never hits). -/
def lineAt (lines : List (List Char)) (i : Nat) : List Char :=
  lines.getD i []

/-- The source's `lines[i].strip().lower()`. -/
def lineLow (lines : List (List Char)) (i : Nat) : List Char :=
  lowerList (pyStrip (lineAt lines i))

/-- `'current session' in line` on the stripped lower-cased line. -/
def isSessionHeaderL (low : List Char) : Bool :=
  containsSub "current session".toList low

/-- `'current week' in line and 'all models' in line`. -/
def isWeeklyHeaderL (low : List Char) : Bool :=
  containsSub "current week".toList low && containsSub "all models".toList low

/-- `'sonnet only' in line`. -/
def isSonnetHeaderL (low : List Char) : Bool :=
  containsSub "sonnet only".toList low

/-- Python's `lines[i : min(i+n, len(lines))]` — the scan window of a
section starting at its header line. -/
def window (lines : List (List Char)) (i n : Nat) : List (List Char) :=
  (lines.drop i).take n

/-- First `some` produced by `f` over a list — the `for ... break` idiom
of the source's inner loops. -/
def firstSome (f : List Char → Option α) : List (List Char) → Option α
  | [] => none
  | x :: xs => (f x).orElse fun _ => firstSome f xs

/-- Percent for a section: first `(\d+)\s*%` match in the 3-line window. -/
def windowPercent (lines : List (List Char)) (i : Nat) : Option Nat :=
  firstSome searchPercent (window lines i 3)

/-- Session reset: first session-reset match in the 3-line window. -/
def windowSessionReset (lines : List (List Char)) (i : Nat) : Option (List Char) :=
  firstSome searchSessionReset (window lines i 3)

/-- Weekly reset: first weekly-reset match in the 5-line window. -/
def windowWeeklyReset (lines : List (List Char)) (i : Nat) : Option (List Char) :=
  firstSome searchWeeklyReset (window lines i 5)

/-- One iteration of the source's `while i < len(lines)` loop body: the
three header tests run in sequence on the same stripped lower-cased line,
and each match in a window overwrites the corresponding field (a window
without a match leaves the field unchanged). -/
def stepAt (lines : List (List Char)) (i : Nat) (r : UsageRecord) : UsageRecord :=
  let low := lineLow lines i
  let r1 :=
    if isSessionHeaderL low then
      { r with
        session_percent := (windowPercent lines i).getD r.session_percent,
        session_reset := (windowSessionReset lines i).getD r.session_reset }
    else r
  let r2 :=
    if isWeeklyHeaderL low then
      { r1 with
        weekly_percent := (windowPercent lines i).getD r1.weekly_percent,
        weekly_reset := (windowWeeklyReset lines i).getD r1.weekly_reset }
    else r1
  if isSonnetHeaderL low then
    { r2 with sonnet_percent := (windowPercent lines i).getD r2.sonnet_percent }
  else r2

/-- The full scanning loop, starting from a given record. -/
def parseLoop (lines : List (List Char)) (init : UsageRecord) : UsageRecord :=
  (List.range lines.length).foldl (fun r i => stepAt lines i r) init

/-- Shallow embedding of `parse_usage` (source lines 156–246): clean the
text, record the final 1000 characters as `raw`, split into lines and run
the scanning loop with all other fields defaulted. -/
def parse_usage (text : List Char) : UsageRecord :=
  let clean := cleanText text
  let init : UsageRecord :=
    { session_percent := 0, session_reset := [], weekly_percent := 0,
      weekly_reset := [], sonnet_percent := 0, raw := lastN 1000 clean }
  parseLoop (splitLines clean) init

/-- Per-field view of the loop, value-level: each header hit overwrites the
field with the window result when the window has a match. -/
def natFoldF (h : Nat → Bool) (w : Nat → Option α) (L : List Nat) (v : α) : α :=
  L.foldl (fun v i => if h i then (w i).getD v else v) v

/-- Per-field view of the loop, `Option`-level: `none` means extraction
never found anything for the field. -/
def optFoldF (h : Nat → Bool) (w : Nat → Option α) (L : List Nat) (acc : Option α) : Option α :=
  L.foldl (fun acc i => if h i then (w i).orElse fun _ => acc else acc) acc

/-- The `Option`-level extractor for one field over all line indices. -/
def extractField (hdr : List Char → Bool) (win : List (List Char) → Nat → Option α)
    (lines : List (List Char)) : Option α :=
  optFoldF (fun i => hdr (lineLow lines i)) (win lines) (List.range lines.length) none

/-- Extractor for `session_percent`. -/
def extractSessionPercent (lines : List (List Char)) : Option Nat :=
  extractField isSessionHeaderL windowPercent lines

/-- Extractor for `session_reset`. -/
def extractSessionReset (lines : List (List Char)) : Option (List Char) :=
  extractField isSessionHeaderL windowSessionReset lines

/-- Extractor for `weekly_percent`. -/
def extractWeeklyPercent (lines : List (List Char)) : Option Nat :=
  extractField isWeeklyHeaderL windowPercent lines

/-- Extractor for `weekly_reset`. -/
def extractWeeklyReset (lines : List (List Char)) : Option (List Char) :=
  extractField isWeeklyHeaderL windowWeeklyReset lines

/-- Extractor for `sonnet_percent`. -/
def extractSonnetPercent (lines : List (List Char)) : Option Nat :=
  extractField isSonnetHeaderL windowPercent lines

theorem orElse_getD (a : Option α) (f : Unit → Option α) (v : α) :
    (a.orElse f).getD v = a.getD ((f ()).getD v) := by
  cases a <;> rfl

theorem natFoldF_eq_optFoldF (h : Nat → Bool) (w : Nat → Option α) (L : List Nat)
    (acc : Option α) (v0 : α) :
    natFoldF h w L (acc.getD v0) = (optFoldF h w L acc).getD v0 := by
  induction L generalizing acc with
  | nil => rfl
  | cons i L ih =>
    simp only [natFoldF, optFoldF, List.foldl_cons] at *
    by_cases hi : h i
    · simp only [hi, if_true]
      have : ((w i).orElse fun _ => acc).getD v0 = (w i).getD (acc.getD v0) := by
        cases w i <;> rfl
      rw [← this, ih]
    · simp only [hi, if_false]
      exact ih acc

theorem natFoldF_nohdr (h : Nat → Bool) (w : Nat → Option α) (L : List Nat) (v : α)
    (hh : ∀ i ∈ L, h i = false) : natFoldF h w L v = v := by
  induction L with
  | nil => rfl
  | cons i L ih =>
    simp only [natFoldF, List.foldl_cons, hh i (List.mem_cons_self i L), if_false]
    exact ih fun j hj => hh j (List.mem_cons_of_mem i hj)

theorem natFoldF_unique (h : Nat → Bool) (w : Nat → Option α) (n i : Nat) (v0 : α)
    (hin : i < n) (hi : h i = true) (huniq : ∀ j, j < n → h j = true → j = i) :
    natFoldF h w (List.range n) v0 = (w i).getD v0 := by
  induction n with
  | zero => omega
  | succ m ih =>
    rw [List.range_succ]
    simp only [natFoldF, List.foldl_append, List.foldl_cons, List.foldl_nil] at *
    by_cases him : i = m
    · subst him
      have hfree : ∀ j ∈ List.range i, h j = false := by
        intro j hj
        have hjlt : j < i := List.mem_range.mp hj
        cases hhj : h j with
        | false => rfl
        | true => exact absurd (huniq j (by omega) hhj) (by omega)
      have := natFoldF_nohdr h w (List.range i) v0 hfree
      simp only [natFoldF] at this
      rw [this, hi]
      simp
    · have hlt : i < m := by omega
      have hm : h m = false := by
        cases hhm : h m with
        | false => rfl
        | true => exact absurd (huniq m (by omega) hhm) (by omega)
      rw [ih hlt fun j hj hhj => huniq j (by omega) hhj, hm]
      simp

theorem natFoldF_pred (P : α → Prop) (h : Nat → Bool) (w : Nat → Option α) (L : List Nat)
    (v : α) (hv : P v) (hw : ∀ i x, w i = some x → P x) :
    P (natFoldF h w L v) := by
  induction L generalizing v with
  | nil => exact hv
  | cons i L ih =>
    simp only [natFoldF, List.foldl_cons]
    refine ih _ ?_
    by_cases hi : h i
    · simp only [hi, if_true]
      cases hwi : w i with
      | none => exact hv
      | some x => exact hw i x hwi
    · simpa only [hi, if_false] using hv

theorem stepAt_session_percent (lines : List (List Char)) (i : Nat) (r : UsageRecord) :
    (stepAt lines i r).session_percent =
      if isSessionHeaderL (lineLow lines i) then
        (windowPercent lines i).getD r.session_percent
      else r.session_percent := by
  simp only [stepAt]
  split <;> split <;> split <;> rfl

theorem stepAt_session_reset (lines : List (List Char)) (i : Nat) (r : UsageRecord) :
    (stepAt lines i r).session_reset =
      if isSessionHeaderL (lineLow lines i) then
        (windowSessionReset lines i).getD r.session_reset
      else r.session_reset := by
  simp only [stepAt]
  split <;> split <;> split <;> rfl

theorem stepAt_weekly_percent (lines : List (List Char)) (i : Nat) (r : UsageRecord) :
    (stepAt lines i r).weekly_percent =
      if isWeeklyHeaderL (lineLow lines i) then
        (windowPercent lines i).getD r.weekly_percent
      else r.weekly_percent := by
  simp only [stepAt]
  split <;> split <;> split <;> rfl

theorem stepAt_weekly_reset (lines : List (List Char)) (i : Nat) (r : UsageRecord) :
    (stepAt lines i r).weekly_reset =
      if isWeeklyHeaderL (lineLow lines i) then
        (windowWeeklyReset lines i).getD r.weekly_reset
      else r.weekly_reset := by
  simp only [stepAt]
  split <;> split <;> split <;> rfl

theorem stepAt_sonnet_percent (lines : List (List Char)) (i : Nat) (r : UsageRecord) :
    (stepAt lines i r).sonnet_percent =
      if isSonnetHeaderL (lineLow lines i) then
        (windowPercent lines i).getD r.sonnet_percent
      else r.sonnet_percent := by
  simp only [stepAt]
  split <;> split <;> split <;> rfl

theorem stepAt_raw (lines : List (List Char)) (i : Nat) (r : UsageRecord) :
    (stepAt lines i r).raw = r.raw := by
  simp only [stepAt]
  split <;> split <;> split <;> rfl

/-- The scanning loop acts on the six fields independently: each field
evolves by its own `natFoldF` over the visited indices, and `raw` is
untouched. -/
theorem loop_fields (lines : List (List Char)) (L : List Nat) (init : UsageRecord) :
    L.foldl (fun r i => stepAt lines i r) init =
      { session_percent :=
          natFoldF (fun i => isSessionHeaderL (lineLow lines i)) (windowPercent lines) L
            init.session_percent,
        session_reset :=
          natFoldF (fun i => isSessionHeaderL (lineLow lines i)) (windowSessionReset lines) L
            init.session_reset,
        weekly_percent :=
          natFoldF (fun i => isWeeklyHeaderL (lineLow lines i)) (windowPercent lines) L
            init.weekly_percent,
        weekly_reset :=
          natFoldF (fun i => isWeeklyHeaderL (lineLow lines i)) (windowWeeklyReset lines) L
            init.weekly_reset,
        sonnet_percent :=
          natFoldF (fun i => isSonnetHeaderL (lineLow lines i)) (windowPercent lines) L
            init.sonnet_percent,
        raw := init.raw } := by
  induction L generalizing init with
  | nil => rfl
  | cons i L ih =>
    simp only [List.foldl_cons]
    rw [ih (stepAt lines i init)]
    simp only [natFoldF, List.foldl_cons, stepAt_session_percent, stepAt_session_reset,
      stepAt_weekly_percent, stepAt_weekly_reset, stepAt_sonnet_percent, stepAt_raw]

set_option maxRecDepth 4000 in
/-- `parse_usage` written field by field over the cleaned lines. -/
theorem parse_fields (text : List Char) :
    parse_usage text =
      { session_percent :=
          natFoldF (fun i => isSessionHeaderL (lineLow (splitLines (cleanText text)) i))
            (windowPercent (splitLines (cleanText text)))
            (List.range (splitLines (cleanText text)).length) 0,
        session_reset :=
          natFoldF (fun i => isSessionHeaderL (lineLow (splitLines (cleanText text)) i))
            (windowSessionReset (splitLines (cleanText text)))
            (List.range (splitLines (cleanText text)).length) [],
        weekly_percent :=
          natFoldF (fun i => isWeeklyHeaderL (lineLow (splitLines (cleanText text)) i))
            (windowPercent (splitLines (cleanText text)))
            (List.range (splitLines (cleanText text)).length) 0,
        weekly_reset :=
          natFoldF (fun i => isWeeklyHeaderL (lineLow (splitLines (cleanText text)) i))
            (windowWeeklyReset (splitLines (cleanText text)))
            (List.range (splitLines (cleanText text)).length) [],
        sonnet_percent :=
          natFoldF (fun i => isSonnetHeaderL (lineLow (splitLines (cleanText text)) i))
            (windowPercent (splitLines (cleanText text)))
            (List.range (splitLines (cleanText text)).length) 0,
        raw := lastN 1000 (cleanText text) } := by
  simp only [parse_usage, parseLoop]
  rw [loop_fields]

/-- A cleaned line in which none of the three section phrases occurs. -/
def noHeaderLine (l : List Char) : Bool :=
  !(isSessionHeaderL (lowerList (pyStrip l)) || isWeeklyHeaderL (lowerList (pyStrip l)) ||
    isSonnetHeaderL (lowerList (pyStrip l)))

/-- Claim C1: for every input string, `parse_usage` returns (it is a total
function, so it never raises) a record containing all six fields
`session_percent`, `session_reset`, `weekly_percent`, `weekly_reset`,
`sonnet_percent`, `raw` of their declared types, where each extracted
field defaults to `0` (integers) or `""` (strings) whenever its extractor
finds nothing. -/
theorem c1_parse_usage_total_with_defaults (text : List Char) :
    parse_usage text =
      { session_percent := (extractSessionPercent (splitLines (cleanText text))).getD 0,
        session_reset := (extractSessionReset (splitLines (cleanText text))).getD [],
        weekly_percent := (extractWeeklyPercent (splitLines (cleanText text))).getD 0,
        weekly_reset := (extractWeeklyReset (splitLines (cleanText text))).getD [],
        sonnet_percent := (extractSonnetPercent (splitLines (cleanText text))).getD 0,
        raw := lastN 1000 (cleanText text) } := by
  rw [parse_fields]
  simp only [extractSessionPercent, extractSessionReset, extractWeeklyPercent,
    extractWeeklyReset, extractSonnetPercent, extractField]
  rw [← natFoldF_eq_optFoldF, ← natFoldF_eq_optFoldF, ← natFoldF_eq_optFoldF,
    ← natFoldF_eq_optFoldF, ← natFoldF_eq_optFoldF]
  rfl

/-- Claim C8 (proof infrastructure): a member of the cleaned lines with no
header phrase makes all three header tests false. -/
theorem noHeaderLine_spec (l : List Char) (h : noHeaderLine l = true) :
    isSessionHeaderL (lowerList (pyStrip l)) = false ∧
    isWeeklyHeaderL (lowerList (pyStrip l)) = false ∧
    isSonnetHeaderL (lowerList (pyStrip l)) = false := by
  simp only [noHeaderLine, Bool.not_eq_true', Bool.or_eq_false_iff] at h
  exact ⟨h.1.1, h.1.2, h.2⟩

/-- Claim C8: an input whose cleaned lines contain none of the section
phrases parses to all-default fields and `raw` equal to the cleaned tail. -/
theorem c8_no_headers_all_defaults (text : List Char)
    (h : (splitLines (cleanText text)).all noHeaderLine = true) :
    parse_usage text =
      { session_percent := 0, session_reset := [], weekly_percent := 0,
        weekly_reset := [], sonnet_percent := 0,
        raw := lastN 1000 (cleanText text) } := by
  rw [parse_fields]
  have hall := List.all_eq_true.mp h
  have key : ∀ i ∈ List.range (splitLines (cleanText text)).length,
      noHeaderLine (lineAt (splitLines (cleanText text)) i) = true := by
    intro i hi
    have hil : i < (splitLines (cleanText text)).length := List.mem_range.mp hi
    refine hall _ ?_
    rw [lineAt, List.getD_eq_getElem _ _ hil]
    exact List.getElem_mem hil
  have k1 : ∀ i ∈ List.range (splitLines (cleanText text)).length,
      isSessionHeaderL (lineLow (splitLines (cleanText text)) i) = false := by
    intro i hi
    exact (noHeaderLine_spec _ (key i hi)).1
  have k2 : ∀ i ∈ List.range (splitLines (cleanText text)).length,
      isWeeklyHeaderL (lineLow (splitLines (cleanText text)) i) = false := by
    intro i hi
    exact (noHeaderLine_spec _ (key i hi)).2.1
  have k3 : ∀ i ∈ List.range (splitLines (cleanText text)).length,
      isSonnetHeaderL (lineLow (splitLines (cleanText text)) i) = false := by
    intro i hi
    exact (noHeaderLine_spec _ (key i hi)).2.2
  rw [natFoldF_nohdr _ _ _ _ k1, natFoldF_nohdr _ _ _ _ k1, natFoldF_nohdr _ _ _ _ k2,
    natFoldF_nohdr _ _ _ _ k2, natFoldF_nohdr _ _ _ _ k3]

/-- Claim C5: `raw` is a suffix of the cleaned text of length
`min 1000 (length of cleaned text)` — in particular at most 1000
characters, the whole cleaned text when that is short, and exactly the
final 1000 characters when the cleaned text is longer. -/
theorem c5_raw_tail_of_clean (text : List Char) :
    (parse_usage text).raw.length ≤ 1000 ∧
    ∃ pre, cleanText text = pre ++ (parse_usage text).raw ∧
      (parse_usage text).raw.length = min 1000 (cleanText text).length := by
  rw [parse_fields]
  simp only [lastN]
  refine ⟨by rw [List.length_drop]; omega,
    List.take ((cleanText text).length - 1000) (cleanText text),
    (List.take_append_drop _ _).symm, by rw [List.length_drop]; omega⟩

/-- Claim C3 (amended): for a uniquely-identified section header line, the
section's percent field equals the value of the first match of the
source's digit-percent pattern (digits, optional whitespace, percent sign)
scanning the header line and then the following lines of its window in
order; the window starts at the header line, so text before it cannot
affect the field. -/
theorem c3_percent_first_match_in_window (text : List Char) :
    (∀ i, i < (splitLines (cleanText text)).length →
      isSessionHeaderL (lineLow (splitLines (cleanText text)) i) = true →
      (∀ j, j < (splitLines (cleanText text)).length →
        isSessionHeaderL (lineLow (splitLines (cleanText text)) j) = true → j = i) →
      (parse_usage text).session_percent =
        (firstSome searchPercent (window (splitLines (cleanText text)) i 3)).getD 0) ∧
    (∀ i, i < (splitLines (cleanText text)).length →
      isWeeklyHeaderL (lineLow (splitLines (cleanText text)) i) = true →
      (∀ j, j < (splitLines (cleanText text)).length →
        isWeeklyHeaderL (lineLow (splitLines (cleanText text)) j) = true → j = i) →
      (parse_usage text).weekly_percent =
        (firstSome searchPercent (window (splitLines (cleanText text)) i 3)).getD 0) ∧
    (∀ i, i < (splitLines (cleanText text)).length →
      isSonnetHeaderL (lineLow (splitLines (cleanText text)) i) = true →
      (∀ j, j < (splitLines (cleanText text)).length →
        isSonnetHeaderL (lineLow (splitLines (cleanText text)) j) = true → j = i) →
      (parse_usage text).sonnet_percent =
        (firstSome searchPercent (window (splitLines (cleanText text)) i 3)).getD 0) := by
  refine ⟨fun i hi hhdr huniq => ?_, fun i hi hhdr huniq => ?_, fun i hi hhdr huniq => ?_⟩ <;>
    · rw [parse_fields]
      exact natFoldF_unique _ _ _ i _ hi hhdr huniq

/-- Input with one header line per section, discharging the hypotheses of
the amended C3 theorem. -/
def c3Input : List Char :=
  ("Current session\n10%\nCurrent week (all models)\n20%\nSonnet only\n30%").toList

set_option maxRecDepth 8000 in
/-- Claim C3 (witness): the amended theorem applied to a concrete input
with a unique header line for each of the three sections. -/
theorem c3_percent_first_match_in_window_witness :
    (parse_usage c3Input).session_percent = 10 ∧
    (parse_usage c3Input).weekly_percent = 20 ∧
    (parse_usage c3Input).sonnet_percent = 30 := by
  refine ⟨?_, ?_, ?_⟩
  · exact ((c3_percent_first_match_in_window c3Input).1 0 (by decide) (by decide)
      (by decide)).trans (by decide)
  · exact ((c3_percent_first_match_in_window c3Input).2.1 2 (by decide) (by decide)
      (by decide)).trans (by decide)
  · exact ((c3_percent_first_match_in_window c3Input).2.2 4 (by decide) (by decide)
      (by decide)).trans (by decide)

/-- Modelled from the claim's wording (C3), for comparison with the code:
a pattern of digits immediately followed by a percent sign, with no
intervening characters — the `\s*` of the source's regex is absent. -/
def specTightPercentAt (l : List Char) : Option Nat :=
  let ds := l.takeWhile Char.isDigit
  if ds.isEmpty then none
  else
    match l.dropWhile Char.isDigit with
    | '%' :: _ => some (digitsToNat ds)
    | _ => none

/-- Leftmost tight digit-percent occurrence in a line (claim's wording). -/
def specTightSearch : List Char → Option Nat
  | [] => none
  | c :: cs => (specTightPercentAt (c :: cs)).orElse fun _ => specTightSearch cs

/-- First tight occurrence over a section window, lines in order
(claim's wording). -/
def specTightWindowPercent (lines : List (List Char)) (i n : Nat) : Option Nat :=
  firstSome specTightSearch (window lines i n)

set_option maxRecDepth 8000 in
/-- Claim C3 (counterexample): on `Current session\nfoo 45 %x 7%` the
session header is at line 0 (uniquely), the first occurrence of
digits-immediately-followed-by-percent in the window has value 7, yet the
code returns 45: the source's regex `(\d+)\s*%` admits whitespace between
the digits and the percent sign, so the claim as stated is false. -/
theorem c3_counterexample :
    isSessionHeaderL (lineLow (splitLines (cleanText ("Current session\nfoo 45 %x 7%").toList)) 0) = true ∧
    specTightWindowPercent (splitLines (cleanText ("Current session\nfoo 45 %x 7%").toList)) 0 3 = some 7 ∧
    (parse_usage ("Current session\nfoo 45 %x 7%").toList).session_percent = 45 := by
  refine ⟨by decide, by decide, by decide⟩

/-- The three scenario lines of claims C2 and C9's session example. -/
def c2Input : List Char :=
  ("Current session\n  45%\n  Resets 3:00pm (America/NY)").toList

set_option maxRecDepth 8000 in
/-- Claim C2 (counterexample): the scenario input itself contains the three
lines in sequence and parses to `session_percent = 45`, but its
`session_reset` does not contain `3:00pm (America/NY)` — the capture
class `[^)\n]*` stops before the closing parenthesis.  A second session
section appended after the lines also overwrites the percent to 99, so
the universally-quantified reading fails independently of the
parenthesis. -/
theorem c2_counterexample :
    containsSub ("Current session\n  45%\n  Resets 3:00pm (America/NY)").toList c2Input = true ∧
    (parse_usage c2Input).session_percent = 45 ∧
    containsSub ("3:00pm (America/NY)").toList (parse_usage c2Input).session_reset = false ∧
    (parse_usage (c2Input ++ ("\nCurrent session\n 99%\n Resets 1:00am (B)").toList)).session_percent = 99 := by
  refine ⟨by decide, by decide, by decide, by decide⟩

set_option maxRecDepth 8000 in
/-- Claim C2 (amended): for the scenario input consisting of exactly the
three lines, `session_percent` is 45 and `session_reset` contains
`3:00pm (America/NY` — the capture stops just before the closing
parenthesis. -/
theorem c2_amended_scenario :
    (parse_usage c2Input).session_percent = 45 ∧
    containsSub ("3:00pm (America/NY").toList (parse_usage c2Input).session_reset = true := by
  refine ⟨by decide, by decide⟩

set_option maxRecDepth 8000 in
/-- Claim C4: percent fields pass out-of-range values through unclamped:
a session window containing `250%` yields 250, above 100, as-is. -/
theorem c4_no_bounds_clamping :
    (parse_usage ("Current session\n250%").toList).session_percent = 250 ∧
    100 < (parse_usage ("Current session\n250%").toList).session_percent := by
  refine ⟨by decide, by decide⟩

/-- The three scenario lines of claim C7. -/
def c7Input : List Char :=
  ("Current week (all models)\n  12%\n  Resets Jan 5, 2025").toList

set_option maxRecDepth 8000 in
/-- Claim C7 (counterexample): an input containing the three scenario lines
in sequence, followed by a second weekly section, parses to
`weekly_percent = 99` rather than 12 — a later matching section header
overwrites the field, so the claim quantified over all containing inputs
is false. -/
theorem c7_counterexample :
    containsSub c7Input (c7Input ++ ("\nCurrent week (all models)\n  99%\n  Resets Feb 9, 2026").toList) = true ∧
    (parse_usage (c7Input ++ ("\nCurrent week (all models)\n  99%\n  Resets Feb 9, 2026").toList)).weekly_percent = 99 := by
  refine ⟨by decide, by decide⟩

set_option maxRecDepth 8000 in
/-- Claim C7 (amended): for the scenario input consisting of exactly the
three lines, `weekly_percent` is 12 and `weekly_reset` is `Jan 5, 2025`
with the leading `Resets` token stripped. -/
theorem c7_amended_scenario :
    (parse_usage c7Input).weekly_percent = 12 ∧
    (parse_usage c7Input).weekly_reset = ("Jan 5, 2025").toList := by
  refine ⟨by decide, by decide⟩

theorem toPrintable_all (l : List Char) : ∀ c ∈ toPrintable l, isPrintableOrNl c = true := by
  intro c hc
  simp only [toPrintable, List.mem_map] at hc
  obtain ⟨a, -, ha⟩ := hc
  by_cases h : isPrintableOrNl a = true
  · rw [if_pos h] at ha
    rwa [← ha]
  · rw [if_neg h] at ha
    rw [← ha]
    decide

theorem mem_collapseRun (b : Bool) (l : List Char) (c : Char) (h : c ∈ collapseRun b l) :
    c ∈ l ∨ c = ' ' := by
  induction l generalizing b with
  | nil => simp [collapseRun] at h
  | cons d ds ih =>
    simp only [collapseRun] at h
    by_cases hd : d = ' '
    · rw [if_pos hd] at h
      cases b with
      | true =>
        rcases ih true h with h2 | h2
        · exact Or.inl (List.mem_cons_of_mem d h2)
        · exact Or.inr h2
      | false =>
        rw [if_neg (by decide : ¬((false : Bool) = true))] at h
        rcases List.mem_cons.mp h with rfl | h2
        · exact Or.inr rfl
        · rcases ih true h2 with h3 | h3
          · exact Or.inl (List.mem_cons_of_mem d h3)
          · exact Or.inr h3
    · rw [if_neg hd] at h
      rcases List.mem_cons.mp h with rfl | h2
      · exact Or.inl (List.mem_cons_self c ds)
      · rcases ih false h2 with h3 | h3
        · exact Or.inl (List.mem_cons_of_mem d h3)
        · exact Or.inr h3

theorem cleanText_all_printable (text : List Char) :
    ∀ c ∈ cleanText text, isPrintableOrNl c = true := by
  intro c hc
  simp only [cleanText, collapseSpaces] at hc
  rcases mem_collapseRun false _ c hc with h | rfl
  · exact toPrintable_all _ c h
  · decide

theorem cleanText_no_esc (text : List Char) : ∀ c ∈ cleanText text, c ≠ escChar := by
  intro c hc he
  have h := cleanText_all_printable text c hc
  subst he
  exact absurd h (by decide)

theorem stripCSIRun_nil_id (l : List Char) (h : ∀ c ∈ l, c ≠ escChar) :
    stripCSIRun [] l = l := by
  induction l with
  | nil => rfl
  | cons c cs ih =>
    have hc : ¬(c = escChar) := h c (List.mem_cons_self c cs)
    simp only [stripCSIRun, if_neg hc]
    rw [ih fun d hd => h d (List.mem_cons_of_mem c hd)]

theorem stripOSCRun_normal_id (l : List Char) (h : ∀ c ∈ l, c ≠ escChar) :
    stripOSCRun .normal l = l := by
  induction l with
  | nil => rfl
  | cons c cs ih =>
    have hc : ¬(c = escChar) := h c (List.mem_cons_self c cs)
    simp only [stripOSCRun, if_neg hc]
    rw [ih fun d hd => h d (List.mem_cons_of_mem c hd)]

/-- Claim C6: the two escape-sequence-removal substitutions are the
identity on text that has been through the full cleaning pipeline, so
running the control-sequence-stripping stage again on cleaned text changes
nothing. -/
theorem c6_strip_idempotent_on_clean (text : List Char) :
    stripCSI (cleanText text) = cleanText text ∧
    stripOSC (cleanText text) = cleanText text := by
  exact ⟨stripCSIRun_nil_id _ (cleanText_no_esc text),
    stripOSCRun_normal_id _ (cleanText_no_esc text)⟩

/-- No two adjacent spaces anywhere in the list. -/
def noDoubleSpace : List Char → Bool
  | c1 :: c2 :: rest => !(c1 = ' ' && c2 = ' ') && noDoubleSpace (c2 :: rest)
  | _ => true

theorem collapseRun_true_head (l : List Char) (d : Char) (t : List Char)
    (h : collapseRun true l = d :: t) : d ≠ ' ' := by
  induction l generalizing d t with
  | nil => simp [collapseRun] at h
  | cons c cs ih =>
    simp only [collapseRun] at h
    by_cases hc : c = ' '
    · rw [if_pos hc] at h
      exact ih d t h
    · rw [if_neg hc] at h
      cases h
      exact hc

theorem noDoubleSpace_collapseRun (l : List Char) (b : Bool) :
    noDoubleSpace (collapseRun b l) = true := by
  induction l generalizing b with
  | nil => rfl
  | cons c cs ih =>
    simp only [collapseRun]
    by_cases hc : c = ' '
    · rw [if_pos hc]
      cases b with
      | true => exact ih true
      | false =>
        rw [if_neg (by decide : ¬((false : Bool) = true))]
        cases ht : collapseRun true cs with
        | nil => rfl
        | cons d t =>
          have hd : d ≠ ' ' := collapseRun_true_head cs d t ht
          have := ih true
          rw [ht] at this
          simp only [noDoubleSpace, Bool.and_eq_true, Bool.not_eq_true', Bool.and_eq_false_iff]
          
          exact ⟨Or.inr (by simpa using hd), this⟩
    · rw [if_neg hc]
      cases ht : collapseRun false cs with
      | nil => rfl
      | cons d t =>
        have := ih false
        rw [ht] at this
        simp only [noDoubleSpace, Bool.and_eq_true, Bool.not_eq_true', Bool.and_eq_false_iff]
        exact ⟨Or.inl (by simpa using hc), this⟩

theorem noDoubleSpace_tail (c : Char) (l : List Char)
    (h : noDoubleSpace (c :: l) = true) : noDoubleSpace l = true := by
  cases l with
  | nil => rfl
  | cons d t =>
    simp only [noDoubleSpace, Bool.and_eq_true] at h
    exact h.2

theorem noDoubleSpace_drop (l : List Char) (k : Nat)
    (h : noDoubleSpace l = true) : noDoubleSpace (l.drop k) = true := by
  induction k generalizing l with
  | zero => exact h
  | succ m ih =>
    cases l with
    | nil => exact h
    | cons c cs => exact ih cs (noDoubleSpace_tail c cs h)

set_option maxRecDepth 8000 in
/-- Claim C10: every character of the `raw` field is printable ASCII or a
newline, and `raw` never contains two consecutive spaces — the cleaning
pipeline establishes both and the tail slice preserves them. -/
theorem c10_raw_printable_no_double_space (text : List Char) :
    ((parse_usage text).raw.all isPrintableOrNl) = true ∧
    noDoubleSpace (parse_usage text).raw = true := by
  rw [parse_fields]
  constructor
  · refine List.all_eq_true.mpr fun c hc => ?_
    refine cleanText_all_printable text c ?_
    exact (List.drop_sublist _ _).mem hc
  · refine noDoubleSpace_drop _ _ ?_
    simp only [cleanText, collapseSpaces]
    exact noDoubleSpace_collapseRun _ false

/-- A character allowed inside a reset field: not `)` and not a newline. -/
def okResetChar (c : Char) : Bool :=
  !(c = ')' || c = '\n')

theorem okResetChar_of_ne (c : Char) (h1 : c ≠ ')') (h2 : c ≠ '\n') :
    okResetChar c = true := by
  simp only [okResetChar, Bool.not_eq_true', Bool.or_eq_false_iff,
    decide_eq_false_iff_not]
  exact ⟨h1, h2⟩

theorem ne_of_pred (f : Char → Bool) (c bad : Char) (h : f c = true)
    (hbad : f bad = false) : c ≠ bad := by
  intro hc
  subst hc
  rw [h] at hbad
  cases hbad

theorem ne_of_toLower (c d bad : Char) (h : Char.toLower c = d)
    (hbad : Char.toLower bad ≠ d) : c ≠ bad := by
  intro hc
  subst hc
  exact hbad h

theorem okResetChar_of_toLower (c d : Char) (h : Char.toLower c = d)
    (h1 : Char.toLower ')' ≠ d) (h2 : Char.toLower '\n' ≠ d) :
    okResetChar c = true :=
  okResetChar_of_ne c (ne_of_toLower c d ')' h h1) (ne_of_toLower c d '\n' h h2)

theorem mem_of_mem_dropWhile (p : Char → Bool) (l : List Char) (c : Char)
    (h : c ∈ l.dropWhile p) : c ∈ l :=
  (List.dropWhile_sublist p).mem h

theorem mem_of_mem_takeWhile (p : Char → Bool) (l : List Char) (c : Char)
    (h : c ∈ l.takeWhile p) : c ∈ l :=
  (List.takeWhile_sublist p).mem h

theorem mem_of_mem_pyStrip (l : List Char) (c : Char) (h : c ∈ pyStrip l) : c ∈ l := by
  simp only [pyStrip] at h
  have h1 := List.mem_reverse.mp h
  have h2 := mem_of_mem_dropWhile _ _ _ h1
  have h3 := List.mem_reverse.mp h2
  exact mem_of_mem_dropWhile _ _ _ h3

theorem splitLines_no_nl (s : List Char) : ∀ l ∈ splitLines s, '\n' ∉ l := by
  induction s with
  | nil =>
    intro l hl
    simp only [splitLines, List.mem_singleton] at hl
    subst hl
    exact List.not_mem_nil '\n'
  | cons c cs ih =>
    intro l hl
    simp only [splitLines] at hl
    by_cases hc : c = '\n'
    · rw [if_pos hc] at hl
      rcases List.mem_cons.mp hl with rfl | h2
      · exact List.not_mem_nil '\n'
      · exact ih l h2
    · rw [if_neg hc] at hl
      cases hs : splitLines cs with
      | nil =>
        rw [hs] at hl
        simp only [List.mem_singleton] at hl
        subst hl
        intro hmem
        rcases List.mem_cons.mp hmem with h | h
        · exact hc h.symm
        · exact List.not_mem_nil '\n' h
      | cons x xs =>
        rw [hs] at hl
        rcases List.mem_cons.mp hl with rfl | h2
        · intro hmem
          rcases List.mem_cons.mp hmem with h | h
          · exact hc h.symm
          · exact ih x (hs ▸ List.mem_cons_self x xs) h
        · exact ih l (hs ▸ List.mem_cons_of_mem x h2)

theorem dropPrefixCI_rest_sublist (ps l con rest : List Char)
    (h : dropPrefixCI ps l = some (con, rest)) : List.Sublist rest l := by
  induction ps generalizing l con rest with
  | nil =>
    simp only [dropPrefixCI, Option.some_inj, Prod.mk.injEq] at h
    rw [← h.2]
  | cons p ps ih =>
    cases l with
    | nil => cases h
    | cons c cs =>
      simp only [dropPrefixCI] at h
      by_cases hc : Char.toLower c = p
      · rw [if_pos hc] at h
        cases hdp : dropPrefixCI ps cs with
        | none => rw [hdp] at h; cases h
        | some pr =>
          rw [hdp] at h
          cases pr with
          | mk con2 rest2 =>
            simp only [Option.some_inj, Prod.mk.injEq] at h
            have := ih cs con2 rest2 hdp
            rw [← h.2]
            exact this.cons c
      · rw [if_neg hc] at h
        cases h

theorem dropPrefixCI_con_lower (ps l con rest : List Char)
    (h : dropPrefixCI ps l = some (con, rest)) :
    ∀ c ∈ con, Char.toLower c ∈ ps := by
  induction ps generalizing l con rest with
  | nil =>
    simp only [dropPrefixCI, Option.some_inj, Prod.mk.injEq] at h
    rw [← h.1]
    intro c hc
    cases hc
  | cons p ps ih =>
    cases l with
    | nil => cases h
    | cons c cs =>
      simp only [dropPrefixCI] at h
      by_cases hc : Char.toLower c = p
      · rw [if_pos hc] at h
        cases hdp : dropPrefixCI ps cs with
        | none => rw [hdp] at h; cases h
        | some pr =>
          rw [hdp] at h
          cases pr with
          | mk con2 rest2 =>
            simp only [Option.some_inj, Prod.mk.injEq] at h
            rw [← h.1]
            intro d hd
            rcases List.mem_cons.mp hd with rfl | h2
            · exact hc ▸ List.mem_cons_self _ _
            · exact List.mem_cons_of_mem p (ih cs con2 rest2 hdp d h2)
      · rw [if_neg hc] at h
        cases h

theorem optOrElse_some (a : α) (f : Unit → Option α) : (some a).orElse f = some a := rfl

theorem optOrElse_none (f : Unit → Option α) : (none : Option α).orElse f = f () := rfl

theorem sessionResetTail_ok (r g : List Char) (hr : ∀ c ∈ r, c ≠ '\n')
    (h : sessionResetTail r = some g) : ∀ c ∈ g, okResetChar c = true := by
  simp only [sessionResetTail] at h
  split at h
  · cases h
  · split at h
    case h_2 => cases h
    case h_1 a m r6 heq =>
      split at h
      case isFalse => cases h
      case isTrue hcond =>
        simp only [Bool.and_eq_true, Bool.or_eq_true, decide_eq_true_eq] at hcond
        obtain ⟨ham, hm⟩ := hcond
        rcases h with ⟨rfl⟩
        intro c hc
        rcases List.mem_append.mp hc with hc1 | h6
        · rcases List.mem_append.mp hc1 with hc2 | h45
          · rcases List.mem_append.mp hc2 with hc3 | h3
            · rcases List.mem_append.mp hc3 with h1 | h2
              · have hd := List.mem_takeWhile_imp h1
                exact okResetChar_of_ne c (ne_of_pred _ c ')' hd (by decide))
                  (ne_of_pred _ c '\n' hd (by decide))
              · have hd := List.mem_takeWhile_imp h2
                exact okResetChar_of_ne c
                  (ne_of_pred (fun x => decide (x = ':') || x.isDigit) c ')' hd (by decide))
                  (ne_of_pred (fun x => decide (x = ':') || x.isDigit) c '\n' hd (by decide))
            · have hd := List.mem_takeWhile_imp h3
              refine okResetChar_of_ne c (ne_of_pred _ c ')' hd (by decide)) ?_
              have hcr : c ∈ r :=
                mem_of_mem_dropWhile _ _ c
                  (mem_of_mem_dropWhile _ _ c
                    (mem_of_mem_dropWhile _ _ c (mem_of_mem_takeWhile _ _ c h3)))
              exact hr c hcr
          · rcases List.mem_cons.mp h45 with rfl | h5
            · rcases ham with ha | ha
              · exact okResetChar_of_toLower _ 'a' ha (by decide) (by decide)
              · exact okResetChar_of_toLower _ 'p' ha (by decide) (by decide)
            · rcases List.mem_cons.mp h5 with rfl | h0
              · exact okResetChar_of_toLower _ 'm' hm (by decide) (by decide)
              · cases h0
        · have hd := List.mem_takeWhile_imp h6
          simpa only [okResetChar] using hd

theorem matchSessionResetAt_ok (l g : List Char) (hl : ∀ c ∈ l, c ≠ '\n')
    (h : matchSessionResetAt l = some g) : ∀ c ∈ g, okResetChar c = true := by
  cases hdp : dropPrefixCI ("reset").toList l with
  | none =>
    simp only [matchSessionResetAt, hdp] at h
    exact Option.noConfusion h
  | some pr =>
    obtain ⟨con, r1⟩ := pr
    have hr1 : ∀ c ∈ r1, c ≠ '\n' := fun c hc =>
      hl c ((dropPrefixCI_rest_sublist _ _ _ _ hdp).mem hc)
    cases r1 with
    | nil =>
      simp only [matchSessionResetAt, hdp] at h
      exact sessionResetTail_ok _ _ hr1 h
    | cons c0 r1b =>
      simp only [matchSessionResetAt, hdp] at h
      have hr1b : ∀ c ∈ r1b, c ≠ '\n' := fun c hc => hr1 c (List.mem_cons_of_mem c0 hc)
      by_cases hs : Char.toLower c0 = 's'
      · rw [if_pos hs] at h
        cases hone : sessionResetTail r1b with
        | some g2 =>
          rw [hone, optOrElse_some] at h
          cases h
          exact sessionResetTail_ok _ _ hr1b hone
        | none =>
          rw [hone, optOrElse_none] at h
          exact sessionResetTail_ok _ _ hr1 h
      · rw [if_neg hs] at h
        exact sessionResetTail_ok _ _ hr1 h

theorem searchSessionReset_ok (line v : List Char) (hline : ∀ c ∈ line, c ≠ '\n')
    (h : searchSessionReset line = some v) : ∀ c ∈ v, okResetChar c = true := by
  induction line with
  | nil => cases h
  | cons c0 cs ih =>
    simp only [searchSessionReset] at h
    cases hm : matchSessionResetAt (c0 :: cs) with
    | some g =>
      rw [hm] at h
      simp only [Option.map_some', optOrElse_some] at h
      cases h
      intro c hc
      exact matchSessionResetAt_ok _ _ hline hm c (mem_of_mem_pyStrip _ _ hc)
    | none =>
      rw [hm] at h
      simp only [Option.map_none', optOrElse_none] at h
      exact ih (fun c hc => hline c (List.mem_cons_of_mem c0 hc)) h

theorem okResetChar_of_toLower_letter (x d : Char) (h : Char.toLower x = d)
    (hd : isAsciiLetter d = true) : okResetChar x = true := by
  refine okResetChar_of_toLower x d h ?_ ?_
  · intro he
    rw [(by decide : Char.toLower ')' = ')')] at he
    subst he
    exact absurd hd (by decide)
  · intro he
    rw [(by decide : Char.toLower '\n' = '\n')] at he
    subst he
    exact absurd hd (by decide)

theorem isMonthTriple_letters (a b c : Char) (h : isMonthTriple a b c = true) :
    okResetChar a = true ∧ okResetChar b = true ∧ okResetChar c = true := by
  simp only [isMonthTriple, Bool.or_eq_true, Bool.and_eq_true, decide_eq_true_eq] at h
  rcases h with
    ((((((((((h | h) | h) | h) | h) | h) | h) | h) | h) | h) | h) | h <;>
    obtain ⟨⟨h1, h2⟩, h3⟩ := h <;>
    exact ⟨okResetChar_of_toLower_letter _ _ h1 (by decide),
      okResetChar_of_toLower_letter _ _ h2 (by decide),
      okResetChar_of_toLower_letter _ _ h3 (by decide)⟩

theorem weeklyResetTail_ok (con r g : List Char)
    (hcon : ∀ c ∈ con, okResetChar c = true) (hr : ∀ c ∈ r, c ≠ '\n')
    (h : weeklyResetTail con r = some g) : ∀ c ∈ g, okResetChar c = true := by
  simp only [weeklyResetTail] at h
  split at h
  case h_2 => exact Option.noConfusion h
  case h_1 a b c0 r3 heq =>
    split at h
    case isFalse => exact Option.noConfusion h
    case isTrue hmon =>
      split at h
      case isTrue => exact Option.noConfusion h
      case isFalse hne =>
        rcases h with ⟨rfl⟩
        obtain ⟨hma, hmb, hmc⟩ := isMonthTriple_letters a b c0 hmon
        intro c hc
        rcases List.mem_append.mp hc with hc1 | h4
        · rcases List.mem_append.mp hc1 with hc2 | h3
          · rcases List.mem_append.mp hc2 with h1 | h2
            · exact hcon c h1
            · have hd := List.mem_takeWhile_imp h2
              refine okResetChar_of_ne c (ne_of_pred _ c ')' hd (by decide)) ?_
              exact hr c (mem_of_mem_takeWhile _ _ c h2)
          · rcases List.mem_cons.mp h3 with rfl | h5
            · exact hma
            · rcases List.mem_cons.mp h5 with rfl | h0
              · exact hmb
              · rcases List.mem_cons.mp h0 with rfl | h00
                · exact hmc
                · cases h00
        · have hd := List.mem_takeWhile_imp h4
          simpa only [okResetChar] using hd

theorem resetPrefix_ok (con : List Char)
    (hlow : ∀ c ∈ con, Char.toLower c ∈ ("reset").toList) :
    ∀ c ∈ con, okResetChar c = true := by
  intro c hc
  have h : Char.toLower c ∈ ['r', 'e', 's', 'e', 't'] := hlow c hc
  simp only [List.mem_cons, List.not_mem_nil, or_false] at h
  rcases h with h1 | h1 | h1 | h1 | h1 <;>
    exact okResetChar_of_toLower_letter _ _ h1 (by decide)

theorem matchWeeklyResetAt_ok (l g : List Char) (hl : ∀ c ∈ l, c ≠ '\n')
    (h : matchWeeklyResetAt l = some g) : ∀ c ∈ g, okResetChar c = true := by
  cases hdp : dropPrefixCI ("reset").toList l with
  | none =>
    simp only [matchWeeklyResetAt, hdp] at h
    exact Option.noConfusion h
  | some pr =>
    obtain ⟨con, r1⟩ := pr
    have hcon : ∀ c ∈ con, okResetChar c = true :=
      resetPrefix_ok con (dropPrefixCI_con_lower _ _ _ _ hdp)
    have hr1 : ∀ c ∈ r1, c ≠ '\n' := fun c hc =>
      hl c ((dropPrefixCI_rest_sublist _ _ _ _ hdp).mem hc)
    cases r1 with
    | nil =>
      simp only [matchWeeklyResetAt, hdp] at h
      exact weeklyResetTail_ok _ _ _ hcon hr1 h
    | cons c0 r1b =>
      simp only [matchWeeklyResetAt, hdp] at h
      have hr1b : ∀ c ∈ r1b, c ≠ '\n' := fun c hc => hr1 c (List.mem_cons_of_mem c0 hc)
      by_cases hs : Char.toLower c0 = 's'
      · rw [if_pos hs] at h
        have hcon2 : ∀ c ∈ con ++ [c0], okResetChar c = true := by
          intro c hc
          rcases List.mem_append.mp hc with hc1 | hc2
          · exact hcon c hc1
          · rcases List.mem_cons.mp hc2 with rfl | h0
            · exact okResetChar_of_toLower_letter _ _ hs (by decide)
            · cases h0
        cases hone : weeklyResetTail (con ++ [c0]) r1b with
        | some g2 =>
          rw [hone, optOrElse_some] at h
          cases h
          exact weeklyResetTail_ok _ _ _ hcon2 hr1b hone
        | none =>
          rw [hone, optOrElse_none] at h
          exact weeklyResetTail_ok _ _ _ hcon hr1 h
      · rw [if_neg hs] at h
        exact weeklyResetTail_ok _ _ _ hcon hr1 h

theorem mem_subLeadingResets (l : List Char) (c : Char)
    (h : c ∈ subLeadingResets l) : c ∈ l := by
  cases hdp : dropPrefixCI ("reset").toList l with
  | none =>
    simp only [subLeadingResets, hdp] at h
    exact h
  | some pr =>
    obtain ⟨con, r⟩ := pr
    have hsub := dropPrefixCI_rest_sublist _ _ _ _ hdp
    cases r with
    | nil =>
      simp only [subLeadingResets, hdp] at h
      cases h
    | cons c0 rest =>
      simp only [subLeadingResets, hdp] at h
      by_cases hs : Char.toLower c0 = 's'
      · rw [if_pos hs] at h
        exact hsub.mem (List.mem_cons_of_mem c0 (mem_of_mem_dropWhile _ _ c h))
      · rw [if_neg hs] at h
        exact hsub.mem (mem_of_mem_dropWhile _ _ c h)

theorem searchWeeklyReset_ok (line v : List Char) (hline : ∀ c ∈ line, c ≠ '\n')
    (h : searchWeeklyReset line = some v) : ∀ c ∈ v, okResetChar c = true := by
  induction line with
  | nil => cases h
  | cons c0 cs ih =>
    simp only [searchWeeklyReset] at h
    cases hm : matchWeeklyResetAt (c0 :: cs) with
    | some g =>
      rw [hm] at h
      simp only [Option.map_some', optOrElse_some] at h
      cases h
      intro c hc
      exact matchWeeklyResetAt_ok _ _ hline hm c
        (mem_subLeadingResets g c (mem_of_mem_pyStrip _ _ hc))
    | none =>
      rw [hm] at h
      simp only [Option.map_none', optOrElse_none] at h
      exact ih (fun c hc => hline c (List.mem_cons_of_mem c0 hc)) h

theorem firstSome_prop (f : List Char → Option α) (ls : List (List Char)) (v : α)
    (h : firstSome f ls = some v) : ∃ line ∈ ls, f line = some v := by
  induction ls with
  | nil => cases h
  | cons x xs ih =>
    simp only [firstSome] at h
    cases hf : f x with
    | some w =>
      rw [hf, optOrElse_some] at h
      cases h
      exact ⟨x, List.mem_cons_self x xs, hf⟩
    | none =>
      rw [hf, optOrElse_none] at h
      obtain ⟨line, hm, hfl⟩ := ih h
      exact ⟨line, List.mem_cons_of_mem x hm, hfl⟩

theorem mem_window (lines : List (List Char)) (i n : Nat) (line : List Char)
    (h : line ∈ window lines i n) : line ∈ lines :=
  (List.drop_sublist i lines).mem ((List.take_sublist n _).mem h)

set_option maxRecDepth 8000 in
/-- Claim C9: the `session_reset` and `weekly_reset` fields returned by
`parse_usage` never contain a closing parenthesis and never contain a
newline: the capture patterns stop at the first `)` or end of line, so a
reset text with a parenthesised suffix comes back truncated before the
`)`. -/
theorem c9_reset_fields_never_contain_paren_or_newline (text : List Char) :
    ((parse_usage text).session_reset.all okResetChar) = true ∧
    ((parse_usage text).weekly_reset.all okResetChar) = true := by
  rw [parse_fields]
  have hnl : ∀ line ∈ splitLines (cleanText text), ∀ c ∈ line, c ≠ '\n' := by
    intro line hline c hc he
    subst he
    exact splitLines_no_nl (cleanText text) line hline hc
  constructor
  · refine natFoldF_pred (fun (v : List Char) => (v.all okResetChar) = true) _ _ _ _ rfl ?_
    intro i v hw
    obtain ⟨line, hline, hsr⟩ := firstSome_prop _ _ _ hw
    exact List.all_eq_true.mpr
      (searchSessionReset_ok line v (hnl line (mem_window _ _ _ _ hline)) hsr)
  · refine natFoldF_pred (fun (v : List Char) => (v.all okResetChar) = true) _ _ _ _ rfl ?_
    intro i v hw
    obtain ⟨line, hline, hsr⟩ := firstSome_prop _ _ _ hw
    exact List.all_eq_true.mpr
      (searchWeeklyReset_ok line v (hnl line (mem_window _ _ _ _ hline)) hsr)

/-- An input with no recognizable section header in any cleaned line. -/
def c8Input : List Char := ("hello 42%\nworld").toList

set_option maxRecDepth 8000 in
/-- Claim C8 (witness): the theorem applied to a concrete header-free
input, with the hypothesis discharged by evaluation. -/
theorem c8_no_headers_all_defaults_witness :
    ((splitLines (cleanText c8Input)).all noHeaderLine = true) ∧
    parse_usage c8Input =
      { session_percent := 0, session_reset := [], weekly_percent := 0,
        weekly_reset := [], sonnet_percent := 0,
        raw := ("hello 42%\nworld").toList } :=
  ⟨by decide, (c8_no_headers_all_defaults c8Input (by decide)).trans (by decide)⟩
